import Mathlib

/-!
Verification of the state-fold repository's mock ledger and fold definitions.

Shallow embedding conventions:
* `u64` / `U64` quantities are modelled as `Nat`.  Every quantity handled by
  the mock ledger (block numbers, hash counters) grows by single increments
  from 0, so all reachable values stay far below `2^64`, where `u64` and
  `Nat` arithmetic agree.
* `H256` hashes are modelled by their low-64-bit value (`Nat`): the mock
  only ever creates hashes via `H256::zero()` and
  `H256::from_low_u64_be(counter)`.
* Fallible operations return `Option`; a `None` models the Rust `None`
  (for `add_block`) or a panicking `assert!`/`unwrap` (for `fold`).
* The Rust `Result<_, MockError>` returned by `IncrementFold::sync` is
  always `Ok`, so `sync` is embedded as a total function.
-/

/-- Block header, from `offchain_core::types::Block` as used in
`state-fold/src/test_utils/mocks.rs`: fields `number`, `hash`,
`parent_hash`, `timestamp`, `logs_bloom`. -/
structure Block where
  number : Nat
  hash : Nat
  parent_hash : Nat
  timestamp : Nat
  logs_bloom : Nat
deriving DecidableEq, Repr

/-- Model of `H256::to_low_u64_be`: the low 64 bits of a hash value. -/
def toLowU64be (h : Nat) : Nat := h % 2 ^ 64

/-- `IncrementFold` state from `mocks.rs`: fields `low_hash`, `n`,
`initial_state`; equality is the derived `PartialEq` on all three fields. -/
structure IncrementFold where
  low_hash : Nat
  n : Nat
  initial_state : Nat
deriving DecidableEq, Repr

/-- `IncrementFold::sync` from `mocks.rs`.  The Rust function
unconditionally returns `Ok`, so it is embedded as a total function. -/
def IncrementFold.sync (initial_state : Nat) (block : Block) : IncrementFold :=
  { low_hash := toLowU64be block.hash
    n := block.number + initial_state
    initial_state := initial_state }

/-- `IncrementFold.fold` from `mocks.rs`.  The `assert_eq!` guard is
embedded as the `if`: `none` models the assertion panicking. -/
def IncrementFold.fold (previous_state : IncrementFold) (block : Block) :
    Option IncrementFold :=
  if previous_state.n + 1 = block.number + previous_state.initial_state then
    some { low_hash := toLowU64be block.hash
           n := previous_state.n + 1
           initial_state := previous_state.initial_state }
  else
    none

/-- Association-list model of the `HashMap<H256, Block>` chain map.
A later insertion is consed at the front, so lookup finds the most
recent binding for a key, matching `HashMap::insert` overwrite
semantics. -/
def chainLookup : List (Nat × Block) → Nat → Option Block
  | [], _ => none
  | (k, b) :: rest, h => if k = h then some b else chainLookup rest h

/-- `MockMiddleware` state from `mocks.rs`: the chain map, the hash
counter `block_count`, the most recently added hash `latest_block`, and
the running maximum `deepest_block`.  The `Mutex`es guard purely
sequential test code, so the state is embedded as a plain record. -/
structure MockMiddleware where
  chain : List (Nat × Block)
  block_count : Nat
  latest_block : Nat
  deepest_block : Nat
deriving DecidableEq, Repr

/-- The genesis block inserted by `MockMiddleware::new`: number 0,
hash `H256::zero()`, parent hash equal to its own hash. -/
def genesisBlock : Block :=
  { number := 0, hash := 0, parent_hash := 0, timestamp := 0, logs_bloom := 0 }

/-- The state of `MockMiddleware` right after `new` inserts the genesis
block and before the `add_block` loop runs. -/
def initState : MockMiddleware :=
  { chain := [(0, genesisBlock)]
    block_count := 0
    latest_block := 0
    deepest_block := 0 }

/-- `MockMiddleware::add_block` from `mocks.rs`.  Returns `none` when
`parent_hash` is not in the chain map; otherwise inserts a block with
`number = parent.number + 1` under the fresh hash `block_count + 1`
(`new_hash` increments the counter and converts it with
`H256::from_low_u64_be`), sets `latest_block`, and raises
`deepest_block` if the new number exceeds it. -/
def MockMiddleware.add_block (m : MockMiddleware) (parent_hash : Nat) :
    Option (MockMiddleware × Nat) :=
  match chainLookup m.chain parent_hash with
  | none => none
  | some parent =>
    let new_number := parent.number + 1
    let new_hash := m.block_count + 1
    let new_block : Block :=
      { number := new_number, hash := new_hash, parent_hash := parent_hash
        timestamp := 0, logs_bloom := 0 }
    some
      ({ chain := (new_hash, new_block) :: m.chain
         block_count := new_hash
         latest_block := new_hash
         deepest_block :=
           if m.deepest_block < new_number then new_number else m.deepest_block },
       new_hash)

/-- The `for _ in 0..initial_block_count` loop of `MockMiddleware::new`:
adds `k` blocks, each on top of the previous one.  The `none` branch
models the `unwrap` in the loop; it is never taken because the parent
just added is always present. -/
def addChainLoop : MockMiddleware → Nat → Nat → MockMiddleware × Nat
  | m, prev, 0 => (m, prev)
  | m, prev, k + 1 =>
    match m.add_block prev with
    | some mh => addChainLoop mh.1 mh.2 k
    | none => (m, prev)

/-- `MockMiddleware::new` from `mocks.rs`: insert the genesis block and
then add `initial_block_count` blocks in a line on top of it. -/
def MockMiddleware.new (initial_block_count : Nat) : MockMiddleware :=
  (addChainLoop initState initState.latest_block initial_block_count).1

/-- `MockMiddleware::get_block`. -/
def MockMiddleware.get_block (m : MockMiddleware) (hash : Nat) : Option Block :=
  chainLookup m.chain hash

/-- `MockMiddleware::get_latest_block`. -/
def MockMiddleware.get_latest_block (m : MockMiddleware) : Option Block :=
  chainLookup m.chain m.latest_block

/-- `Middleware::get_block_number` for `MockMiddleware`: the number of
the block at `latest_block`.  The Rust `unwrap` is embedded by keeping
the `Option`. -/
def MockMiddleware.get_block_number (m : MockMiddleware) : Option Nat :=
  (m.get_latest_block).map Block.number

/-- The `loop` of `MockMiddleware::get_block_with_number_from`, with an
explicit fuel argument to make the recursion structural: look up the
current hash; return the block if its number matches, stop at number 0,
otherwise step to the parent. -/
def getFromLoop (m : MockMiddleware) (number : Nat) : Nat → Nat → Option Block
  | 0, _ => none
  | fuel + 1, current =>
    match chainLookup m.chain current with
    | some block =>
      if block.number = number then some block
      else if block.number = 0 then none
      else getFromLoop m number fuel block.parent_hash
    | none => none

/-- `MockMiddleware::get_block_with_number_from`.  The Rust `loop` is
run with fuel `chain.length + 1`; on every state reachable from `new`
and `add_block` the walk visits strictly decreasing block numbers, all
below `chain.length`, so this fuel never runs out before the loop's own
exit conditions fire. -/
def MockMiddleware.get_block_with_number_from (m : MockMiddleware)
    (number tip : Nat) : Option Block :=
  getFromLoop m number (m.chain.length + 1) tip

/-- Iterating the `parent_hash` link `k` times from a hash, used to
speak about the ancestor path that `get_block_with_number_from` walks. -/
def walkParents (m : MockMiddleware) : Nat → Nat → Nat
  | 0, h => h
  | k + 1, h =>
    match chainLookup m.chain h with
    | some b => walkParents m k b.parent_hash
    | none => h

/-- States of the mock ledger produced by `MockMiddleware::new` (whose
intermediate states all appear here, starting from `initState`) followed
by any sequence of successful `add_block` calls. -/
inductive Reachable : MockMiddleware → Prop where
  | base : Reachable initState
  | step {m m' : MockMiddleware} {p h : Nat} :
      Reachable m → m.add_block p = some (m', h) → Reachable m'

/-- Invariant of reachable `MockMiddleware` states: the chain map binds
exactly the hashes `0 .. block_count`, every block records its own key
as `hash`, genesis is at hash 0, every non-genesis block's parent is
present with number one less, block numbers are bounded by
`block_count`, number 0 only occurs at genesis, `latest_block` is a key,
and the map has `block_count + 1` entries. -/
structure ChainInv (m : MockMiddleware) : Prop where
  keys_eq : ∀ h, (chainLookup m.chain h).isSome = true ↔ h ≤ m.block_count
  hash_eq : ∀ h b, chainLookup m.chain h = some b → b.hash = h
  genesis : chainLookup m.chain 0 = some genesisBlock
  parent_closed : ∀ h b, chainLookup m.chain h = some b → b.number ≠ 0 →
    ∃ p, chainLookup m.chain b.parent_hash = some p ∧ p.number + 1 = b.number
  number_le : ∀ h b, chainLookup m.chain h = some b → b.number ≤ m.block_count
  genesis_only : ∀ h b, chainLookup m.chain h = some b → b.number = 0 →
    b = genesisBlock
  latest_le : m.latest_block ≤ m.block_count
  len_eq : m.chain.length = m.block_count + 1

/-- Loop invariant for the `add_block` loop inside `MockMiddleware::new`:
the state satisfies `ChainInv`, `prev` is the latest block, the block at
`prev` has number `n`, and `n` bounds every number in the map (the chain
built so far is a single line topped by `prev`). -/
def LinearTop (m : MockMiddleware) (prev n : Nat) : Prop :=
  ChainInv m ∧ m.latest_block = prev ∧
    (∃ b, chainLookup m.chain prev = some b ∧ b.number = n) ∧
    (∀ h b, chainLookup m.chain h = some b → b.number ≤ n)

/-- Modelled from the spec: the `BlockSubscriber` implementation of the
`block-history` crate is not among the sources (only its integration
test is), so the per-subscriber stream is modelled from spec §4.C:
`subscribe_new_blocks_at_depth(d)` on a chain whose tip is at height `H`
first replays `NewBlock` at height `H - d`, and thereafter each tick
that advances the tip by one yields the next `NewBlock`, one height
higher; with no reorg the items are `NewBlock (H - d + i)` in order. -/
inductive BlockStreamItem where
  | NewBlock (number : Nat)
  | Reorg (rolled : List Nat)
deriving DecidableEq, Repr

/-- Modelled from the spec: the first `count` items delivered by a
reorg-free subscription at depth `d` created when the tip is at height
`H` (see `BlockStreamItem` for what is missing from the sources). -/
def subscriptionStream (H d count : Nat) : List BlockStreamItem :=
  (List.range count).map (fun i => BlockStreamItem.NewBlock (H - d + i))

/-- C3: for every block `B` and every `initial_state` `is`,
`IncrementFold::sync(is, B)` succeeds (it is total in this embedding,
mirroring the unconditional `Ok`) and the returned state's field `n`
equals `B.number + is`; in particular syncing at a block of height 100
with `initial_state = 5` yields `n = 105`. -/
theorem incrementFold_sync_n (is : Nat) (B : Block) :
    (IncrementFold.sync is B).n = B.number + is ∧
    (IncrementFold.sync 5 ⟨100, 0, 0, 0, 0⟩).n = 105 := by
  constructor
  · rfl
  · rfl

/-- C2: sync-fold equivalence for `IncrementFold`: for every
`initial_state` `is` and blocks `P`, `B` with `B.number = P.number + 1`,
folding the sync-derived state at `P` through `B` succeeds (the
`assert_eq!` holds) and returns exactly the sync-derived state at `B`,
with equality the derived `PartialEq` on the fields `low_hash`, `n`,
`initial_state`. -/
theorem incrementFold_sync_fold_equiv (is : Nat) (P B : Block)
    (hPB : B.number = P.number + 1) :
    IncrementFold.fold (IncrementFold.sync is P) B =
      some (IncrementFold.sync is B) := by
  simp only [IncrementFold.fold, IncrementFold.sync, hPB]
  rw [if_pos (by omega)]
  simp only [Option.some.injEq, IncrementFold.mk.injEq]
  exact ⟨trivial, by omega, trivial⟩

/-- Witness for C2 at `is = 5`, `P` of height 100, `B` of height 101. -/
theorem incrementFold_sync_fold_equiv_w :
    IncrementFold.fold (IncrementFold.sync 5 ⟨100, 7, 3, 0, 0⟩) ⟨101, 9, 7, 0, 0⟩ =
      some (IncrementFold.sync 5 ⟨101, 9, 7, 0, 0⟩) :=
  incrementFold_sync_fold_equiv 5 ⟨100, 7, 3, 0, 0⟩ ⟨101, 9, 7, 0, 0⟩ (by decide)

/-- C5: the assertion inside `IncrementFold::fold` never fires along a
chain: for every previous state `s` that is the state for `B`'s parent
(`1 ≤ B.number` and `s.n = (B.number - 1) + s.initial_state`),
`fold(s, B)` does not panic (returns `some`) and the result has
`n = s.n + 1` and the same `initial_state`. -/
theorem incrementFold_fold_no_panic (s : IncrementFold) (B : Block)
    (hB : 1 ≤ B.number) (hs : s.n = (B.number - 1) + s.initial_state) :
    IncrementFold.fold s B =
      some { low_hash := toLowU64be B.hash
             n := s.n + 1
             initial_state := s.initial_state } := by
  simp only [IncrementFold.fold]
  rw [if_pos (by omega)]

/-- Witness for C5 at `s = ⟨0, 105, 5⟩` and `B` of height 101. -/
theorem incrementFold_fold_no_panic_w :
    IncrementFold.fold ⟨0, 105, 5⟩ ⟨101, 9, 7, 0, 0⟩ =
      some { low_hash := toLowU64be 9, n := 106, initial_state := 5 } :=
  incrementFold_fold_no_panic ⟨0, 105, 5⟩ ⟨101, 9, 7, 0, 0⟩ (by decide) (by decide)

/-- Lookup at the key just inserted finds the new block. -/
theorem chainLookup_cons_eq (k : Nat) (b : Block) (c : List (Nat × Block)) :
    chainLookup ((k, b) :: c) k = some b := by
  simp [chainLookup]

/-- Lookup at any other key is unchanged by an insertion. -/
theorem chainLookup_cons_ne (k : Nat) (b : Block) (c : List (Nat × Block))
    (x : Nat) (hx : k ≠ x) : chainLookup ((k, b) :: c) x = chainLookup c x := by
  simp [chainLookup, hx]

/-- Under the invariant, the hash the next `add_block` will mint is not
yet a key of the chain map. -/
theorem chainInv_fresh {m : MockMiddleware} (hi : ChainInv m) :
    chainLookup m.chain (m.block_count + 1) = none := by
  have hk := hi.keys_eq (m.block_count + 1)
  rcases hq : chainLookup m.chain (m.block_count + 1) with _ | b
  · rfl
  · exfalso
    have hle : m.block_count + 1 ≤ m.block_count := hk.mp (by rw [hq]; rfl)
    omega

/-- Characterization of a successful `add_block`: the parent was found,
the returned hash is `block_count + 1`, and the new state is the old one
with the freshly keyed block consed on, with the bookkeeping fields
advanced. -/
theorem add_block_some {m m' : MockMiddleware} {p h : Nat}
    (ha : m.add_block p = some (m', h)) :
    ∃ pb, chainLookup m.chain p = some pb ∧
      h = m.block_count + 1 ∧
      m'.chain = (m.block_count + 1,
          { number := pb.number + 1, hash := m.block_count + 1,
            parent_hash := p, timestamp := 0, logs_bloom := 0 }) :: m.chain ∧
      m'.block_count = m.block_count + 1 ∧
      m'.latest_block = m.block_count + 1 := by
  rcases hp : chainLookup m.chain p with _ | pb
  · simp [MockMiddleware.add_block, hp] at ha
  · simp only [MockMiddleware.add_block, hp, Option.some.injEq, Prod.mk.injEq] at ha
    refine ⟨pb, rfl, ha.2.symm, ?_, ?_, ?_⟩ <;> rw [← ha.1]

/-- A successful `add_block` preserves the chain invariant. -/
theorem chainInv_add {m m' : MockMiddleware} {p h : Nat}
    (hi : ChainInv m) (ha : m.add_block p = some (m', h)) : ChainInv m' := by
  obtain ⟨pb, hp, hh, hchain, hbc, hlat⟩ := add_block_some ha
  have hfresh := chainInv_fresh hi
  have hpne : m.block_count + 1 ≠ p := by
    intro hcon
    rw [← hcon, hfresh] at hp
    exact Option.noConfusion hp
  have hpbn : pb.number ≤ m.block_count := hi.number_le p pb hp
  refine ⟨?_, ?_, ?_, ?_, ?_, ?_, ?_, ?_⟩
  · intro x
    rw [hchain, hbc]
    by_cases hx : m.block_count + 1 = x
    · subst hx
      rw [chainLookup_cons_eq]
      simp
    · rw [chainLookup_cons_ne _ _ _ _ hx, hi.keys_eq x]
      omega
  · intro x b hb
    rw [hchain] at hb
    by_cases hx : m.block_count + 1 = x
    · subst hx
      rw [chainLookup_cons_eq] at hb
      injection hb with hb
      subst hb
      rfl
    · rw [chainLookup_cons_ne _ _ _ _ hx] at hb
      exact hi.hash_eq x b hb
  · rw [hchain, chainLookup_cons_ne _ _ _ _ (by omega)]
    exact hi.genesis
  · intro x b hb hn0
    rw [hchain] at hb ⊢
    by_cases hx : m.block_count + 1 = x
    · subst hx
      rw [chainLookup_cons_eq] at hb
      injection hb with hb
      subst hb
      refine ⟨pb, ?_, rfl⟩
      show chainLookup _ p = some pb
      rw [chainLookup_cons_ne _ _ _ _ hpne]
      exact hp
    · rw [chainLookup_cons_ne _ _ _ _ hx] at hb
      obtain ⟨q, hq, hqn⟩ := hi.parent_closed x b hb hn0
      have hbp : m.block_count + 1 ≠ b.parent_hash := by
        intro hc
        rw [← hc, hfresh] at hq
        exact Option.noConfusion hq
      refine ⟨q, ?_, hqn⟩
      rw [chainLookup_cons_ne _ _ _ _ hbp]
      exact hq
  · intro x b hb
    rw [hchain] at hb
    rw [hbc]
    by_cases hx : m.block_count + 1 = x
    · subst hx
      rw [chainLookup_cons_eq] at hb
      injection hb with hb
      subst hb
      show pb.number + 1 ≤ m.block_count + 1
      omega
    · rw [chainLookup_cons_ne _ _ _ _ hx] at hb
      have := hi.number_le x b hb
      omega
  · intro x b hb hn0
    rw [hchain] at hb
    by_cases hx : m.block_count + 1 = x
    · subst hx
      rw [chainLookup_cons_eq] at hb
      injection hb with hb
      subst hb
      exact absurd hn0 (Nat.succ_ne_zero pb.number)
    · rw [chainLookup_cons_ne _ _ _ _ hx] at hb
      exact hi.genesis_only x b hb hn0
  · rw [hlat, hbc]
  · rw [hchain, hbc, List.length_cons, hi.len_eq]

/-- The genesis-only initial state satisfies the chain invariant. -/
theorem chainInv_init : ChainInv initState := by
  have hlook : ∀ h, chainLookup initState.chain h =
      if h = 0 then some genesisBlock else none := by
    intro h
    rcases h with _ | k
    · rfl
    · simp [initState, chainLookup]
  refine ⟨?_, ?_, ?_, ?_, ?_, ?_, ?_, ?_⟩
  · intro h
    rw [hlook]
    by_cases h0 : h = 0
    · subst h0
      simp [initState]
    · rw [if_neg h0]
      show (none : Option Block).isSome = true ↔ h ≤ initState.block_count
      simp [initState]
      omega
  · intro h b hb
    rw [hlook] at hb
    by_cases h0 : h = 0
    · subst h0
      rw [if_pos rfl] at hb
      injection hb with hb
      subst hb
      rfl
    · rw [if_neg h0] at hb
      exact Option.noConfusion hb
  · rfl
  · intro h b hb hn0
    rw [hlook] at hb
    by_cases h0 : h = 0
    · rw [if_pos h0] at hb
      injection hb with hb
      subst hb
      exact absurd rfl hn0
    · rw [if_neg h0] at hb
      exact Option.noConfusion hb
  · intro h b hb
    rw [hlook] at hb
    by_cases h0 : h = 0
    · rw [if_pos h0] at hb
      injection hb with hb
      subst hb
      exact Nat.le_refl _
    · rw [if_neg h0] at hb
      exact Option.noConfusion hb
  · intro h b hb _
    rw [hlook] at hb
    by_cases h0 : h = 0
    · rw [if_pos h0] at hb
      injection hb with hb
      exact hb.symm
    · rw [if_neg h0] at hb
      exact Option.noConfusion hb
  · exact Nat.le_refl _
  · rfl

/-- Every reachable mock-ledger state satisfies the chain invariant. -/
theorem reachable_chainInv {m : MockMiddleware} (hr : Reachable m) : ChainInv m := by
  induction hr with
  | base => exact chainInv_init
  | step _ ha ih => exact chainInv_add ih ha

/-- The loop inside `MockMiddleware::new` preserves reachability. -/
theorem addChainLoop_reachable (k : Nat) :
    ∀ m prev, Reachable m → Reachable (addChainLoop m prev k).1 := by
  induction k with
  | zero => intro m prev hm; exact hm
  | succ k ih =>
    intro m prev hm
    rcases ha : m.add_block prev with _ | mh
    · simp only [addChainLoop, ha]
      exact hm
    · simp only [addChainLoop, ha]
      exact ih mh.1 mh.2 (Reachable.step hm ha)

/-- The state built by `MockMiddleware::new` is reachable. -/
theorem reachable_new (k : Nat) : Reachable (MockMiddleware.new k) :=
  addChainLoop_reachable k initState 0 Reachable.base

/-- When the designated parent is present, `add_block` succeeds and the
`LinearTop` loop invariant moves up one level. -/
theorem linearTop_add {m : MockMiddleware} {prev n : Nat}
    (hl : LinearTop m prev n) :
    ∃ m' h, m.add_block prev = some (m', h) ∧ LinearTop m' h (n + 1) := by
  obtain ⟨hi, hlat, ⟨pb, hpb, hpbn⟩, hbound⟩ := hl
  rcases ha : m.add_block prev with _ | mh
  · rw [MockMiddleware.add_block, hpb] at ha
    exact Option.noConfusion ha
  · obtain ⟨m1, h1⟩ := mh
    obtain ⟨pb', hp', hh, hchain, hbc, hlat'⟩ := add_block_some ha
    rw [hpb] at hp'
    injection hp' with hp'
    subst hp'
    refine ⟨m1, h1, rfl, chainInv_add hi ha, by rw [hlat', hh], ?_, ?_⟩
    · refine ⟨{ number := pb.number + 1, hash := m.block_count + 1,
                parent_hash := prev, timestamp := 0, logs_bloom := 0 }, ?_, ?_⟩
      · rw [hchain, hh]
        exact chainLookup_cons_eq _ _ m.chain
      · show pb.number + 1 = n + 1
        omega
    · intro x b hb
      rw [hchain] at hb
      by_cases hx : m.block_count + 1 = x
      · subst hx
        rw [chainLookup_cons_eq] at hb
        injection hb with hb
        subst hb
        show pb.number + 1 ≤ n + 1
        omega
      · rw [chainLookup_cons_ne _ _ _ _ hx] at hb
        have := hbound x b hb
        omega

/-- Running the `new` loop for `k` steps lifts the `LinearTop` invariant
by `k` levels. -/
theorem linearTop_addChainLoop (k : Nat) :
    ∀ m prev n, LinearTop m prev n →
      LinearTop (addChainLoop m prev k).1 (addChainLoop m prev k).2 (n + k) := by
  induction k with
  | zero =>
    intro m prev n hl
    simpa [addChainLoop] using hl
  | succ k ih =>
    intro m prev n hl
    obtain ⟨m', h, ha, hl'⟩ := linearTop_add hl
    simp only [addChainLoop, ha]
    rw [show n + (k + 1) = (n + 1) + k by omega]
    exact ih m' h (n + 1) hl'

/-- The `LinearTop` invariant holds at the start of the `new` loop. -/
theorem linearTop_init : LinearTop initState 0 0 := by
  refine ⟨chainInv_init, rfl, ⟨genesisBlock, rfl, rfl⟩, ?_⟩
  intro h b hb
  rcases h with _ | k
  · injection hb with hb
    subst hb
    exact Nat.le_refl _
  · simp [initState, chainLookup] at hb

/-- Genesis is reached from any block by walking `parent_hash` links for
`number` steps: block numbers strictly decrease along parent links until
number 0 at the genesis block. -/
theorem walk_genesis {m : MockMiddleware} (hi : ChainInv m) :
    ∀ n h b, chainLookup m.chain h = some b → b.number = n →
      chainLookup m.chain (walkParents m n h) = some genesisBlock := by
  intro n
  induction n with
  | zero =>
    intro h b hb hbn
    show chainLookup m.chain h = some genesisBlock
    rw [hb, hi.genesis_only h b hb hbn]
  | succ n ih =>
    intro h b hb hbn
    obtain ⟨p, hp, hpn⟩ := hi.parent_closed h b hb (by omega)
    simp only [walkParents, hb]
    exact ih b.parent_hash p hp (by omega)

/-- When the target number lies at or below the current block's number,
the ancestor walk of `get_block_with_number_from` finds it, and the
found block is the one on the parent path at the expected distance. -/
theorem getFromLoop_found {m : MockMiddleware} (hi : ChainInv m) (n : Nat) :
    ∀ k tip tb fuel, chainLookup m.chain tip = some tb → n + k = tb.number →
      k < fuel →
      ∃ b, getFromLoop m n fuel tip = some b ∧ b.number = n ∧
        chainLookup m.chain (walkParents m k tip) = some b := by
  intro k
  induction k with
  | zero =>
    intro tip tb fuel ht hn hf
    rcases fuel with _ | fuel
    · omega
    · refine ⟨tb, ?_, by omega, ht⟩
      simp only [getFromLoop, ht]
      rw [if_pos (by omega)]
  | succ k ih =>
    intro tip tb fuel ht hn hf
    rcases fuel with _ | fuel
    · omega
    · obtain ⟨p, hp, hpn⟩ := hi.parent_closed tip tb ht (by omega)
      obtain ⟨b, h1, h2, h3⟩ := ih tb.parent_hash p fuel hp (by omega) (by omega)
      refine ⟨b, ?_, h2, ?_⟩
      · simp only [getFromLoop, ht]
        rw [if_neg (by omega), if_neg (by omega)]
        exact h1
      · simp only [walkParents, ht]
        exact h3

/-- When every block visible from the starting hash sits strictly below
the target number, the ancestor walk returns `none`: parent links only
decrease the number. -/
theorem getFromLoop_above {m : MockMiddleware} (hi : ChainInv m) (n : Nat) :
    ∀ fuel tip, (∀ tb, chainLookup m.chain tip = some tb → tb.number < n) →
      getFromLoop m n fuel tip = none := by
  intro fuel
  induction fuel with
  | zero =>
    intro tip _
    rfl
  | succ fuel ih =>
    intro tip hlt
    rcases ht : chainLookup m.chain tip with _ | tb
    · simp [getFromLoop, ht]
    · have hlt' := hlt tb ht
      simp only [getFromLoop, ht]
      rw [if_neg (by omega)]
      by_cases h0 : tb.number = 0
      · rw [if_pos h0]
      · rw [if_neg h0]
        apply ih
        intro q hq
        obtain ⟨p, hp, hpn⟩ := hi.parent_closed tip tb ht h0
        rw [hp] at hq
        injection hq with hq
        subst hq
        omega

/-- C6: chain closure invariant of the mock ledger: after
`MockMiddleware::new(k)` and any sequence of successful `add_block`
calls (all such states are `Reachable`; `reachable_new` covers the
`new(k)` starting points), every block in the chain map that is not the
genesis block has its `parent_hash` present as a key of the map (the
genesis block's parent hash is its own hash, so closure holds for it
trivially). -/
theorem chain_closure (m : MockMiddleware) (hr : Reachable m)
    (h : Nat) (b : Block) (hb : chainLookup m.chain h = some b)
    (hng : b ≠ genesisBlock) :
    (chainLookup m.chain b.parent_hash).isSome = true := by
  have hi := reachable_chainInv hr
  by_cases hn0 : b.number = 0
  · exact absurd (hi.genesis_only h b hb hn0) hng
  · obtain ⟨p, hp, _⟩ := hi.parent_closed h b hb hn0
    rw [hp]
    rfl

/-- Witness for C6: in `new(1)` the block at hash 1 is not genesis and
its parent hash is a key of the map. -/
theorem chain_closure_w :
    (chainLookup (MockMiddleware.new 1).chain
      (Block.parent_hash
        { number := 1, hash := 1, parent_hash := 0,
          timestamp := 0, logs_bloom := 0 })).isSome = true :=
  chain_closure (MockMiddleware.new 1) (reachable_new 1) 1
    { number := 1, hash := 1, parent_hash := 0, timestamp := 0, logs_bloom := 0 }
    (by decide) (by decide)

/-- C7, counterexample: the claim says `get_block_number` returns the
maximal block number present in the chain map after any successful
`add_block` calls, including ones extending a shorter side branch.  On
`new(2)` (heights 0,1,2) followed by `add_block(genesis)`, the code
returns 1 — the number of the block just added on the side branch —
while the map still holds a block of number 2 at hash 2. -/
theorem get_block_number_not_max_cex :
    ((MockMiddleware.new 2).add_block 0).map
        (fun r => (r.1.get_block_number, chainLookup r.1.chain 2)) =
      some (some 1, some { number := 2, hash := 2, parent_hash := 1,
                           timestamp := 0, logs_bloom := 0 }) := by
  decide

/-- C7, amended: `get_block_number` returns the number of the block at
`latest_block`, i.e. of the most recently added block; it equals the
maximal block number in the map when every `add_block` extended the
previous latest block, as in the linear chain built by `new(k)`, where
it returns `k` and `k` bounds every number in the map. -/
theorem new_get_block_number (k : Nat) :
    (MockMiddleware.new k).get_block_number = some k ∧
    (∀ h b, chainLookup (MockMiddleware.new k).chain h = some b →
      b.number ≤ k) := by
  have hl := linearTop_addChainLoop k initState 0 0 linearTop_init
  obtain ⟨hi, hlat, ⟨b, hb, hbn⟩, hbound⟩ := hl
  constructor
  · show (chainLookup (addChainLoop initState 0 k).1.chain
        (addChainLoop initState 0 k).1.latest_block).map Block.number = some k
    rw [hlat, hb]
    show some b.number = some k
    rw [hbn, Nat.zero_add]
  · intro h b' hb'
    have := hbound h b' hb'
    omega

/-- Witness for C7's amended claim at `k = 3` and the block at hash 2. -/
theorem new_get_block_number_w :
    (MockMiddleware.new 3).get_block_number = some 3 ∧
    Block.number { number := 2, hash := 2, parent_hash := 1,
                   timestamp := 0, logs_bloom := 0 } ≤ 3 :=
  ⟨(new_get_block_number 3).1,
   (new_get_block_number 3).2 2
     { number := 2, hash := 2, parent_hash := 1, timestamp := 0, logs_bloom := 0 }
     (by decide)⟩

/-- C8: block numbers increase by exactly one along any chain: every
block created by `add_block` has number equal to its parent's number
plus 1; every non-genesis block's parent is present with number one
less; and following `parent_hash` links from any block for `number`
steps strictly decreases the number until the genesis block (number 0)
is reached. -/
theorem block_number_monotone (m : MockMiddleware) (hr : Reachable m) :
    (∀ p m' h, m.add_block p = some (m', h) →
      ∃ pb b, chainLookup m.chain p = some pb ∧
        chainLookup m'.chain h = some b ∧ b.number = pb.number + 1) ∧
    (∀ h b, chainLookup m.chain h = some b → b.number ≠ 0 →
      ∃ pb, chainLookup m.chain b.parent_hash = some pb ∧
        pb.number + 1 = b.number) ∧
    (∀ h b, chainLookup m.chain h = some b →
      chainLookup m.chain (walkParents m b.number h) = some genesisBlock) := by
  have hi := reachable_chainInv hr
  refine ⟨?_, ?_, ?_⟩
  · intro p m' h ha
    obtain ⟨pb, hp, hh, hchain, _, _⟩ := add_block_some ha
    subst hh
    refine ⟨pb, { number := pb.number + 1, hash := m.block_count + 1,
                  parent_hash := p, timestamp := 0, logs_bloom := 0 },
            hp, ?_, rfl⟩
    rw [hchain]
    exact chainLookup_cons_eq _ _ m.chain
  · intro h b hb hn0
    exact hi.parent_closed h b hb hn0
  · intro h b hb
    exact walk_genesis hi b.number h b hb rfl

/-- Witness for C8: walking one parent link from the block of number 1
in `new(1)` reaches genesis. -/
theorem block_number_monotone_w :
    chainLookup (MockMiddleware.new 1).chain
        (walkParents (MockMiddleware.new 1)
          (Block.number { number := 1, hash := 1, parent_hash := 0,
                          timestamp := 0, logs_bloom := 0 }) 1) =
      some genesisBlock :=
  (block_number_monotone (MockMiddleware.new 1) (reachable_new 1)).2.2 1
    { number := 1, hash := 1, parent_hash := 0, timestamp := 0, logs_bloom := 0 }
    (by decide)

/-- C9: `add_block(parent_hash)` returns `None` exactly when
`parent_hash` is not a key of the chain map; on success the minted hash
is the next counter value `block_count + 1` (the counter starts the
non-genesis hashes at 1 while genesis keeps hash 0), that hash was not
previously a key, and exactly one new entry is consed onto the map, so
no existing entry is overwritten. -/
theorem add_block_fresh (m : MockMiddleware) (hr : Reachable m) (p : Nat) :
    (m.add_block p = none ↔ chainLookup m.chain p = none) ∧
    (∀ m' h, m.add_block p = some (m', h) →
      h = m.block_count + 1 ∧ chainLookup m.chain h = none ∧
      ∃ pb, chainLookup m.chain p = some pb ∧
        m'.chain = (h, { number := pb.number + 1, hash := h, parent_hash := p,
                         timestamp := 0, logs_bloom := 0 }) :: m.chain) := by
  have hi := reachable_chainInv hr
  constructor
  · rcases hp : chainLookup m.chain p with _ | pb <;>
      simp [MockMiddleware.add_block, hp]
  · intro m' h ha
    obtain ⟨pb, hp, hh, hchain, _, _⟩ := add_block_some ha
    subst hh
    exact ⟨rfl, chainInv_fresh hi, pb, hp, hchain⟩

/-- Witness for C9: adding on the absent hash 5 in `new(1)` fails, and
the failure is equivalent to the hash being absent. -/
theorem add_block_fresh_w :
    (MockMiddleware.new 1).add_block 5 = none ↔
      chainLookup (MockMiddleware.new 1).chain 5 = none :=
  (add_block_fresh (MockMiddleware.new 1) (reachable_new 1) 5).1

/-- C10: `get_block_with_number_from(n, tip)` returns `some b` with
`b.number = n` exactly when a block numbered `n` lies on the ancestor
path from `tip` down to number 0 — on a reachable state that path
carries the numbers `tip.number, …, 0`, so the hit happens exactly when
`n ≤ tip.number`, and the returned block is the one reached after
`tip.number - n` parent steps; for `n` above the tip's number it
returns `none`; for `n = 0` it returns the genesis block; and from an
absent tip hash it returns `none`. -/
theorem get_block_with_number_from_spec (m : MockMiddleware) (hr : Reachable m)
    (tip : Nat) (tb : Block) (n : Nat)
    (ht : chainLookup m.chain tip = some tb) :
    (n ≤ tb.number →
      ∃ b, m.get_block_with_number_from n tip = some b ∧ b.number = n ∧
        chainLookup m.chain (walkParents m (tb.number - n) tip) = some b) ∧
    (tb.number < n → m.get_block_with_number_from n tip = none) ∧
    m.get_block_with_number_from 0 tip = some genesisBlock ∧
    (∀ t, chainLookup m.chain t = none →
      m.get_block_with_number_from n t = none) := by
  have hi := reachable_chainInv hr
  have hnum := hi.number_le tip tb ht
  have hlen := hi.len_eq
  refine ⟨?_, ?_, ?_, ?_⟩
  · intro hle
    exact getFromLoop_found hi n (tb.number - n) tip tb (m.chain.length + 1) ht
      (by omega) (by omega)
  · intro hgt
    show getFromLoop m n (m.chain.length + 1) tip = none
    apply getFromLoop_above hi n
    intro q hq
    rw [ht] at hq
    injection hq with hq
    subst hq
    omega
  · obtain ⟨b, h1, h2, h3⟩ := getFromLoop_found hi 0 tb.number tip tb
      (m.chain.length + 1) ht (by omega) (by omega)
    show getFromLoop m 0 (m.chain.length + 1) tip = some genesisBlock
    rw [h1, hi.genesis_only _ b h3 h2]
  · intro t htn
    show getFromLoop m n (m.chain.length + 1) t = none
    simp only [getFromLoop, htn]

/-- Witness for C10 on `new(2)`: querying number 0 from the tip at hash
2 returns the genesis block. -/
theorem get_block_with_number_from_spec_w :
    (MockMiddleware.new 2).get_block_with_number_from 0 2 = some genesisBlock :=
  (get_block_with_number_from_spec (MockMiddleware.new 2) (reachable_new 2) 2
    { number := 2, hash := 2, parent_hash := 1, timestamp := 0, logs_bloom := 0 }
    5 (by decide)).2.2.1

/-- C1: subscribing at depth `d` on a chain of height `H` yields as
first item a `NewBlock` at height `H - d`; for a subscription at depth
10 created with the tip at height `H ≥ 10`, the first five items are
`NewBlock` at heights `H - 10, H - 9, H - 8, H - 7, H - 6` in order
(stream modelled from the spec, see `subscriptionStream`). -/
theorem subscription_backfill_depth (H d : Nat) (hH : 10 ≤ H) :
    (subscriptionStream H d 5).head? = some (BlockStreamItem.NewBlock (H - d)) ∧
    subscriptionStream H 10 5 =
      [BlockStreamItem.NewBlock (H - 10), BlockStreamItem.NewBlock (H - 9),
       BlockStreamItem.NewBlock (H - 8), BlockStreamItem.NewBlock (H - 7),
       BlockStreamItem.NewBlock (H - 6)] := by
  constructor
  · rfl
  · show [BlockStreamItem.NewBlock (H - 10), BlockStreamItem.NewBlock (H - 10 + 1),
          BlockStreamItem.NewBlock (H - 10 + 2), BlockStreamItem.NewBlock (H - 10 + 3),
          BlockStreamItem.NewBlock (H - 10 + 4)] = _
    rw [show H - 10 + 1 = H - 9 by omega, show H - 10 + 2 = H - 8 by omega,
        show H - 10 + 3 = H - 7 by omega, show H - 10 + 4 = H - 6 by omega]

/-- Witness for C1 at `H = 12`, `d = 3`. -/
theorem subscription_backfill_depth_w :
    (subscriptionStream 12 3 5).head? = some (BlockStreamItem.NewBlock 9) ∧
    subscriptionStream 12 10 5 =
      [BlockStreamItem.NewBlock 2, BlockStreamItem.NewBlock 3,
       BlockStreamItem.NewBlock 4, BlockStreamItem.NewBlock 5,
       BlockStreamItem.NewBlock 6] :=
  subscription_backfill_depth 12 3 (by decide)

/-- C4: on a depth-0 subscription with no intervening `Reorg`, if the
first yielded block has number `N0 = H`, the next 10 items are
`NewBlock` at `N0 + 1` through `N0 + 10` in order, and any two
successive `NewBlock` items differ in number by exactly 1 (stream
modelled from the spec, see `subscriptionStream`). -/
theorem subscription_depth0_successive (H : Nat) :
    subscriptionStream H 0 11 =
      [BlockStreamItem.NewBlock H, BlockStreamItem.NewBlock (H + 1),
       BlockStreamItem.NewBlock (H + 2), BlockStreamItem.NewBlock (H + 3),
       BlockStreamItem.NewBlock (H + 4), BlockStreamItem.NewBlock (H + 5),
       BlockStreamItem.NewBlock (H + 6), BlockStreamItem.NewBlock (H + 7),
       BlockStreamItem.NewBlock (H + 8), BlockStreamItem.NewBlock (H + 9),
       BlockStreamItem.NewBlock (H + 10)] ∧
    (∀ i na nb, i + 1 < 11 →
      (subscriptionStream H 0 11)[i]? = some (BlockStreamItem.NewBlock na) →
      (subscriptionStream H 0 11)[i + 1]? = some (BlockStreamItem.NewBlock nb) →
      nb = na + 1) := by
  have hlist : subscriptionStream H 0 11 =
      [BlockStreamItem.NewBlock H, BlockStreamItem.NewBlock (H + 1),
       BlockStreamItem.NewBlock (H + 2), BlockStreamItem.NewBlock (H + 3),
       BlockStreamItem.NewBlock (H + 4), BlockStreamItem.NewBlock (H + 5),
       BlockStreamItem.NewBlock (H + 6), BlockStreamItem.NewBlock (H + 7),
       BlockStreamItem.NewBlock (H + 8), BlockStreamItem.NewBlock (H + 9),
       BlockStreamItem.NewBlock (H + 10)] := rfl
  refine ⟨hlist, ?_⟩
  intro i na nb hi11 h1 h2
  rw [hlist] at h1 h2
  have hi10 : i < 10 := by omega
  interval_cases i <;> simp_all <;> omega

/-- Witness for C4 at `H = 0`, `i = 0`. -/
theorem subscription_depth0_successive_w : (1 : Nat) = 0 + 1 :=
  (subscription_depth0_successive 0).2 0 0 1 (by decide) (by decide) (by decide)
